import Mathlib

/-
  Verification of the NeuroPy core analysis routines (ModulesPath/decoders.py and
  ModulesPath/lfpEvent.py): the Bayesian Poisson decoder, permutation-test p-values,
  the threshold/merge/duration event-detection passes, the replay line scorer, and
  the shuffle routines.  Numeric arrays are embedded over ℚ; np.exp is an abstract
  function E : ℚ → ℚ (every property proved here is independent of its values);
  randomness (shuffle offsets, permutations, line angles) enters as explicit inputs;
  raised numpy exceptions are modelled with Except.
-/

namespace NeuroPy

/-! ## Bayes._decoder (decoders.py lines 44-69 / 105-130) -/

/-- Per-cell probability entry built in `Bayes._decoder`:
`cell_prob[:, :, cell] = ((tau * cell_ratemap) ** cell_spkcnt) * (1 / factorial(cell_spkcnt)) * exp(-tau * cell_ratemap)`.
`spkcount cell t` is the spike count of `cell` in time bin `t`, `ratemaps cell p`
its firing rate at position bin `p`, and `E` stands for np.exp. -/
def cell_prob (E : ℚ → ℚ) (tau : ℚ) (spkcount : ℕ → ℕ → ℕ) (ratemaps : ℕ → ℕ → ℚ)
    (p t cell : ℕ) : ℚ :=
  ((tau * ratemaps cell p) ^ spkcount cell t) * (1 / (Nat.factorial (spkcount cell t) : ℚ))
    * E (-(tau * ratemaps cell p))

/-- Joint likelihood before normalization: `posterior = np.prod(cell_prob, axis=2)`. -/
def joint_prob (E : ℚ → ℚ) (tau : ℚ) (nCells : ℕ) (spkcount : ℕ → ℕ → ℕ)
    (ratemaps : ℕ → ℕ → ℚ) (p t : ℕ) : ℚ :=
  ∏ cell ∈ Finset.range nCells, cell_prob E tau spkcount ratemaps p t cell

/-- Normalized posterior: `posterior /= np.sum(posterior, axis=0)` divides each
time-bin column by its own sum across position bins. -/
def posterior (E : ℚ → ℚ) (tau : ℚ) (nCells nPos : ℕ) (spkcount : ℕ → ℕ → ℕ)
    (ratemaps : ℕ → ℕ → ℚ) (p t : ℕ) : ℚ :=
  joint_prob E tau nCells spkcount ratemaps p t /
    ∑ q ∈ Finset.range nPos, joint_prob E tau nCells spkcount ratemaps q t

/-- Poisson probability exactly as the specification writes it:
`P = (bin_duration·rate)^count / count! · exp(−bin_duration·rate)`. -/
def poisson_pmf (E : ℚ → ℚ) (lam : ℚ) (k : ℕ) : ℚ :=
  lam ^ k / (Nat.factorial k : ℚ) * E (-lam)

/-! ## Bayes1d.p_val_events (decoders.py lines 398-404) -/

/-- Count of shuffle iterations beating the real score for event `i`:
`chance = np.where(shuff_score - tile(score) > 0, 1, 0).sum(axis=0)`. -/
def chance (nIter : ℕ) (shuff : ℕ → ℕ → ℚ) (score : ℕ → ℚ) (i : ℕ) : ℕ :=
  ((Finset.range nIter).filter (fun it => 0 < shuff it i - score i)).card

/-- p-value of event `i`: `(chance + 1) / (n_iter + 1)`. -/
def p_val_events (nIter : ℕ) (shuff : ℕ → ℕ → ℚ) (score : ℕ → ℚ) (i : ℕ) : ℚ :=
  ((chance nIter shuff score i : ℚ) + 1) / ((nIter : ℚ) + 1)

/-! ## Claim C1 -/

/-- C1: the decoder's joint likelihood at position bin `p` and time bin `t`, before
normalization, is the product over all cells of the Poisson probability
`(tau·rate)^count / count! · exp(−tau·rate)` of each cell's count. -/
theorem joint_prob_eq_poisson_product (E : ℚ → ℚ) (tau : ℚ) (nCells : ℕ)
    (spkcount : ℕ → ℕ → ℕ) (ratemaps : ℕ → ℕ → ℚ) (p t : ℕ) :
    joint_prob E tau nCells spkcount ratemaps p t
      = ∏ cell ∈ Finset.range nCells,
          poisson_pmf E (tau * ratemaps cell p) (spkcount cell t) := by
  unfold joint_prob
  refine Finset.prod_congr rfl (fun cell _ => ?_)
  unfold cell_prob poisson_pmf
  ring

/-! ## Claim C2 -/

/-- C2: every time-bin column of the posterior whose joint likelihood summed across
position bins is nonzero sums to exactly 1; normalization divides each column by its
own sum. -/
theorem posterior_columns_sum_to_one (E : ℚ → ℚ) (tau : ℚ) (nCells nPos : ℕ)
    (spkcount : ℕ → ℕ → ℕ) (ratemaps : ℕ → ℕ → ℚ) (t : ℕ)
    (h : ∑ q ∈ Finset.range nPos, joint_prob E tau nCells spkcount ratemaps q t ≠ 0) :
    ∑ p ∈ Finset.range nPos, posterior E tau nCells nPos spkcount ratemaps p t = 1 := by
  unfold posterior
  rw [← Finset.sum_div]
  exact div_self h

/-- Witness for C2 at a concrete instance: one cell, two position bins, zero spike
counts, constant modelled exponential. -/
theorem posterior_columns_sum_to_one_witness :
    (∑ q ∈ Finset.range 2, joint_prob (fun _ => 1) 1 1 (fun _ _ => 0) (fun _ _ => 0) q 0 ≠ 0)
      ∧ ∑ p ∈ Finset.range 2,
          posterior (fun _ => 1) 1 1 2 (fun _ _ => 0) (fun _ _ => 0) p 0 = 1 := by
  have h : ∑ q ∈ Finset.range 2,
      joint_prob (fun _ => 1) 1 1 (fun _ _ => 0) (fun _ _ => 0) q 0 ≠ 0 := by
    norm_num [joint_prob, cell_prob, Finset.sum_range_succ, Finset.prod_range_succ]
  exact ⟨h, posterior_columns_sum_to_one (fun _ => 1) 1 1 2 (fun _ _ => 0) (fun _ _ => 0) 0 h⟩

/-! ## Claim C3 -/

/-- C3: the p-value of event `i` equals
`(1 + #{iterations with shuffled_score > real_score}) / (1 + n_iterations)`, and every
p-value lies in `[1/(n_iterations+1), 1]`. -/
theorem p_val_events_formula_and_range (nIter : ℕ) (shuff : ℕ → ℕ → ℚ)
    (score : ℕ → ℚ) (i : ℕ) :
    p_val_events nIter shuff score i
        = (1 + (((Finset.range nIter).filter (fun it => score i < shuff it i)).card : ℚ))
            / (1 + (nIter : ℚ))
      ∧ 1 / ((nIter : ℚ) + 1) ≤ p_val_events nIter shuff score i
      ∧ p_val_events nIter shuff score i ≤ 1 := by
  have hfilter : (Finset.range nIter).filter (fun it => 0 < shuff it i - score i)
      = (Finset.range nIter).filter (fun it => score i < shuff it i) := by
    refine Finset.filter_congr (fun it _ => ?_)
    simp [sub_pos]
  have hcard : chance nIter shuff score i ≤ nIter := by
    unfold chance
    calc ((Finset.range nIter).filter (fun it => 0 < shuff it i - score i)).card
        ≤ (Finset.range nIter).card := Finset.card_filter_le _ _
      _ = nIter := Finset.card_range nIter
  have hpos : (0 : ℚ) < (nIter : ℚ) + 1 := by positivity
  refine ⟨?_, ?_, ?_⟩
  · unfold p_val_events chance
    rw [hfilter]
    rw [add_comm (((Finset.range nIter).filter (fun it => score i < shuff it i)).card : ℚ) 1,
      add_comm (nIter : ℚ) 1]
  · unfold p_val_events
    rw [div_le_div_iff_of_pos_right hpos]
    have : (0 : ℚ) ≤ (chance nIter shuff score i : ℚ) := by positivity
    linarith
  · unfold p_val_events
    rw [div_le_one hpos]
    have : (chance nIter shuff score i : ℚ) ≤ (nIter : ℚ) := by exact_mod_cast hcard
    linarith

/-! ## col_shuffle (decoders.py lines 325-340) -/

/-- np.roll of a vector by a signed shift: `np.roll(v, sh)[j] = v[(j - sh) mod len v]`,
realised as a left rotation by `(-sh) mod len v`. -/
def np_roll (v : List ℚ) (sh : ℤ) : List ℚ :=
  v.rotate (((-sh) % (v.length : ℤ)).toNat)

/-- Core of `col_shuffle`:
`np.array([np.roll(mat[:, i], sh) for i, sh in enumerate(shift)]).T`.
The matrix is stored as the list of its time-bin columns; column `i` is rolled by
`shift i`, and no value moves between columns. -/
def col_shuffle (cols : List (List ℚ)) (shift : List ℤ) : List (List ℚ) :=
  List.zipWith np_roll cols shift

/-- np.random.randint(low, high, size): raises ValueError when `high ≤ low`; otherwise
returns `size` draws in `[low, high)`, the randomness being supplied by `draws`. -/
def np_randint (low high : ℤ) (size : ℕ) (draws : ℕ → ℕ) : Except String (List ℤ) :=
  if high ≤ low then Except.error "ValueError"
  else Except.ok ((List.range size).map (fun j => low + ((draws j : ℤ) % (high - low))))

/-- Full `col_shuffle` including the random draws:
`shift = np.random.randint(1, mat.shape[1], mat.shape[1])` multiplied by
`np.random.choice([-1, 1], mat.shape[1])` (supplied by `dirs`), then each column is
rolled by its signed shift. -/
def col_shuffle_run (cols : List (List ℚ)) (draws : ℕ → ℕ) (dirs : ℕ → ℤ) :
    Except String (List (List ℚ)) :=
  (np_randint 1 (cols.length : ℤ) cols.length draws).map
    (fun mags => col_shuffle cols ((mags.enum).map (fun p => p.2 * dirs p.1)))

/-! ## Claim C7 -/

/-- C7: one application of the column shuffle keeps the shape, turns every column into
a cyclic rotation of the corresponding original column, and therefore preserves each
column's length, multiset of values and sum. -/
theorem col_shuffle_columns_are_rotations (cols : List (List ℚ)) (shift : List ℤ)
    (h : shift.length = cols.length) :
    (col_shuffle cols shift).length = cols.length ∧
    ∀ i, i < cols.length →
      (∃ k, (col_shuffle cols shift).getD i [] = (cols.getD i []).rotate k) ∧
      ((col_shuffle cols shift).getD i []).length = (cols.getD i []).length ∧
      (↑((col_shuffle cols shift).getD i []) : Multiset ℚ) = ↑(cols.getD i []) ∧
      ((col_shuffle cols shift).getD i []).sum = (cols.getD i []).sum := by
  have hlen : (col_shuffle cols shift).length = cols.length := by
    simp [col_shuffle, List.length_zipWith, h]
  refine ⟨hlen, fun i hi => ?_⟩
  have hi2 : i < (col_shuffle cols shift).length := by rw [hlen]; exact hi
  have hshift : i < shift.length := by rw [h]; exact hi
  have hget : (col_shuffle cols shift).getD i []
      = (cols.getD i []).rotate (((-(shift.getD i 0)) % (((cols.getD i []).length : ℤ))).toNat) := by
    rw [List.getD_eq_getElem _ _ hi2, List.getD_eq_getElem _ _ hi, List.getD_eq_getElem _ _ hshift]
    simp only [col_shuffle, List.getElem_zipWith, np_roll]
  have hperm : List.Perm ((col_shuffle cols shift).getD i []) (cols.getD i []) := by
    rw [hget]; exact List.rotate_perm _ _
  exact ⟨⟨_, hget⟩, hperm.length_eq, Multiset.coe_eq_coe.mpr hperm, hperm.sum_eq⟩

/-- Witness for C7 on a concrete two-column matrix with shifts `[1, -1]`. -/
theorem col_shuffle_columns_are_rotations_witness :
    (col_shuffle [[1, 2], [3, 4]] [1, -1]).length = 2 :=
  (col_shuffle_columns_are_rotations [[1, 2], [3, 4]] [1, -1] rfl).1

/-! ## Claim C10 -/

/-- C10: on a posterior with exactly one time-bin column the shift draw
`np.random.randint(1, 1, 1)` has an empty range `[1, 1)`, so the column shuffle raises
ValueError instead of returning a shuffled matrix. -/
theorem col_shuffle_run_single_column_error (cols : List (List ℚ)) (draws : ℕ → ℕ)
    (dirs : ℕ → ℤ) (h : cols.length = 1) :
    col_shuffle_run cols draws dirs = Except.error "ValueError" := by
  simp [col_shuffle_run, np_randint, h, Except.map]

/-- Witness for C10 on a concrete one-column posterior. -/
theorem col_shuffle_run_single_column_error_witness :
    col_shuffle_run [[1, 2]] (fun _ => 0) (fun _ => 1) = Except.error "ValueError" :=
  col_shuffle_run_single_column_error [[1, 2]] (fun _ => 0) (fun _ => 1) rfl

/-! ## Ripple.detect merge pass (lfpEvent.py lines 317-330, same loop in Spindle.detect
lines 692-704) -/

/-- Merge loop body: starting from the current run `cur`, combine the next run into it
when its start is closer than `g` samples to `cur`'s end
(`firstPass[i, 0] - ripple[1] < minInterRippleSamples`), otherwise emit `cur` and
continue from the next run; the final current run is emitted at the end. -/
def mergeAux (g : ℚ) (cur : ℕ × ℕ) : List (ℕ × ℕ) → List (ℕ × ℕ)
  | [] => [cur]
  | r :: rest =>
    if (r.1 : ℚ) - (cur.2 : ℚ) < g then mergeAux g (cur.1, r.2) rest
    else cur :: mergeAux g r rest

/-- Second pass of the threshold detectors: the merge loop seeded with the first run
(`ripple = firstPass[0]`). On an empty first pass the source raises IndexError; the
pipeline embedding `ripple_detect` models that, while here the empty case is vacuous. -/
def secondPass (g : ℚ) : List (ℕ × ℕ) → List (ℕ × ℕ)
  | [] => []
  | r :: rest => mergeAux g r rest

/-- Helper: every run produced by the merge loop starts no earlier than the seed run's
start and is itself well-formed, provided the input runs are well-formed and sorted. -/
theorem mergeAux_start_le (g : ℚ) :
    ∀ (rest : List (ℕ × ℕ)) (cur : ℕ × ℕ), cur.1 ≤ cur.2 →
      (∀ r ∈ rest, r.1 ≤ r.2) → List.Chain' (fun p q : ℕ × ℕ => p.2 ≤ q.1) (cur :: rest) →
      ∀ q ∈ mergeAux g cur rest, cur.1 ≤ q.1 ∧ q.1 ≤ q.2 := by
  intro rest
  induction rest with
  | nil =>
    intro cur hcur _ _ q hq
    simp only [mergeAux, List.mem_singleton] at hq
    subst hq
    exact ⟨le_refl _, hcur⟩
  | cons r rest ih =>
    intro cur hcur hwf hchain q hq
    have hcr : cur.2 ≤ r.1 := (List.chain'_cons.mp hchain).1
    have hchain2 : List.Chain' (fun p q : ℕ × ℕ => p.2 ≤ q.1) (r :: rest) :=
      (List.chain'_cons.mp hchain).2
    have hr : r.1 ≤ r.2 := hwf r (List.mem_cons_self r rest)
    have hwf2 : ∀ s ∈ rest, s.1 ≤ s.2 := fun s hs => hwf s (List.mem_cons_of_mem r hs)
    simp only [mergeAux] at hq
    by_cases hmerge : (r.1 : ℚ) - (cur.2 : ℚ) < g
    · rw [if_pos hmerge] at hq
      have hcur2 : (cur.1, r.2).1 ≤ (cur.1, r.2).2 :=
        le_trans hcur (le_trans hcr hr)
      have hchain3 : List.Chain' (fun p q : ℕ × ℕ => p.2 ≤ q.1) ((cur.1, r.2) :: rest) := by
        rcases rest with _ | ⟨s, rest⟩
        · exact List.chain'_singleton _
        · exact List.chain'_cons.mpr ⟨(List.chain'_cons.mp hchain2).1, (List.chain'_cons.mp hchain2).2⟩
      exact ih (cur.1, r.2) hcur2 hwf2 hchain3 q hq
    · rw [if_neg hmerge] at hq
      rcases List.mem_cons.mp hq with hq | hq
      · subst hq; exact ⟨le_refl _, hcur⟩
      · have := ih r hr hwf2 hchain2 q hq
        exact ⟨le_trans hcur (le_trans hcr this.1), this.2⟩

/-- Helper: the merge loop's output is pairwise separated: whenever run `p` comes
anywhere before run `q` in the output, `q` starts at least `g` samples after `p` ends. -/
theorem mergeAux_pairwise (g : ℚ) :
    ∀ (rest : List (ℕ × ℕ)) (cur : ℕ × ℕ), cur.1 ≤ cur.2 →
      (∀ r ∈ rest, r.1 ≤ r.2) → List.Chain' (fun p q : ℕ × ℕ => p.2 ≤ q.1) (cur :: rest) →
      List.Pairwise (fun p q : ℕ × ℕ => (p.2 : ℚ) + g ≤ (q.1 : ℚ)) (mergeAux g cur rest) := by
  intro rest
  induction rest with
  | nil =>
    intro cur _ _ _
    simp [mergeAux]
  | cons r rest ih =>
    intro cur hcur hwf hchain
    have hcr : cur.2 ≤ r.1 := (List.chain'_cons.mp hchain).1
    have hchain2 : List.Chain' (fun p q : ℕ × ℕ => p.2 ≤ q.1) (r :: rest) :=
      (List.chain'_cons.mp hchain).2
    have hr : r.1 ≤ r.2 := hwf r (List.mem_cons_self r rest)
    have hwf2 : ∀ s ∈ rest, s.1 ≤ s.2 := fun s hs => hwf s (List.mem_cons_of_mem r hs)
    simp only [mergeAux]
    by_cases hmerge : (r.1 : ℚ) - (cur.2 : ℚ) < g
    · rw [if_pos hmerge]
      have hcur2 : (cur.1, r.2).1 ≤ (cur.1, r.2).2 :=
        le_trans hcur (le_trans hcr hr)
      have hchain3 : List.Chain' (fun p q : ℕ × ℕ => p.2 ≤ q.1) ((cur.1, r.2) :: rest) := by
        rcases rest with _ | ⟨s, rest⟩
        · exact List.chain'_singleton _
        · exact List.chain'_cons.mpr ⟨(List.chain'_cons.mp hchain2).1, (List.chain'_cons.mp hchain2).2⟩
      exact ih (cur.1, r.2) hcur2 hwf2 hchain3
    · rw [if_neg hmerge]
      refine List.pairwise_cons.mpr ⟨?_, ih r hr hwf2 hchain2⟩
      intro q hq
      have hstart : r.1 ≤ q.1 := (mergeAux_start_le g rest r hr hwf2 hchain2 q hq).1
      have hkeep : g ≤ (r.1 : ℚ) - (cur.2 : ℚ) := le_of_not_lt hmerge
      have : (r.1 : ℚ) ≤ (q.1 : ℚ) := by exact_mod_cast hstart
      linarith

/-! ## Claim C4 -/

/-- C4: after the merge pass (which combines a run into the previous one exactly when
its start is closer than `g` samples to the previous run's end), every pair of
surviving runs is separated by at least `g` samples; and since the later passes only
delete runs (any sublist of the merged output), every emitted event table remains
pairwise separated, time-ordered and non-overlapping. -/
theorem merge_pass_separation_invariant (g : ℚ) (hg : 0 ≤ g) (runs : List (ℕ × ℕ))
    (h1 : ∀ r ∈ runs, r.1 ≤ r.2)
    (h2 : List.Chain' (fun p q : ℕ × ℕ => p.2 ≤ q.1) runs)
    (later : List (ℕ × ℕ)) (hsub : List.Sublist later (secondPass g runs)) :
    List.Pairwise (fun p q : ℕ × ℕ => (p.2 : ℚ) + g ≤ (q.1 : ℚ)) later ∧
    List.Pairwise (fun p q : ℕ × ℕ => p.2 ≤ q.1) later := by
  have hmerged : List.Pairwise (fun p q : ℕ × ℕ => (p.2 : ℚ) + g ≤ (q.1 : ℚ))
      (secondPass g runs) := by
    rcases runs with _ | ⟨r, rest⟩
    · simp [secondPass]
    · exact mergeAux_pairwise g rest r (h1 r (List.mem_cons_self r rest))
        (fun s hs => h1 s (List.mem_cons_of_mem r hs)) h2
  have hsep : List.Pairwise (fun p q : ℕ × ℕ => (p.2 : ℚ) + g ≤ (q.1 : ℚ)) later :=
    List.Pairwise.sublist hsub hmerged
  refine ⟨hsep, hsep.imp ?_⟩
  intro p q hpq
  have : (p.2 : ℚ) ≤ (q.1 : ℚ) := by linarith
  exact_mod_cast this

/-- Witness for C4: three runs with gap 2, the middle run merging into the first;
the merged table is time-ordered and non-overlapping. -/
theorem merge_pass_separation_invariant_witness :
    List.Pairwise (fun p q : ℕ × ℕ => p.2 ≤ q.1) (secondPass 2 [(0, 1), (2, 3), (10, 12)]) :=
  (merge_pass_separation_invariant 2 (by norm_num) [(0, 1), (2, 3), (10, 12)]
    (by decide) (by norm_num [List.chain'_cons]) _ (List.Sublist.refl _)).2

/-! ## Duration filters (Ripple.detect lines 353-376, Spindle.detect lines 723-732) -/

/-- Ripple event duration in seconds: `np.diff(thirdPass, axis=1) / SampFreq`. -/
def ripple_duration (f : ℚ) (r : ℕ × ℕ) : ℚ := ((r.2 : ℚ) - (r.1 : ℚ)) / f

/-- Duration filter of Ripple.detect: `ripples[ripples.duration >= minDuration]`
followed by `ripples[ripples.duration <= maxDuration]`. -/
def ripple_durationFilter (f minD maxD : ℚ) (l : List (ℕ × ℕ)) : List (ℕ × ℕ) :=
  (l.filter (fun r => decide (minD ≤ ripple_duration f r))).filter
    (fun r => decide (ripple_duration f r ≤ maxD))

/-- Spindle event duration in milliseconds:
`np.diff(thirdPass, axis=1) / sampleRate * 1000`. -/
def spindle_duration (rate : ℚ) (r : ℕ × ℕ) : ℚ := ((r.2 : ℚ) - (r.1 : ℚ)) / rate * 1000

/-- Indices of too-short spindles:
`shortspindles = np.where(spindle_duration < self.minSpindleDuration)[0]`. -/
def spindle_short_idx (rate minS : ℚ) (l : List (ℕ × ℕ)) : List ℕ :=
  (l.enum.filter (fun p => decide (spindle_duration rate p.2 < minS))).map Prod.fst

/-- np.delete on axis 0: drop the rows whose index is listed in `idx`. -/
def np_delete (l : List (ℕ × ℕ)) (idx : List ℕ) : List (ℕ × ℕ) :=
  (l.enum.filter (fun p => decide (p.1 ∉ idx))).map Prod.snd

/-- Duration pass of Spindle.detect:
`fourthPass = np.delete(thirdPass, shortspindles, 0)`. This is the only duration
filter in Spindle.detect; no maximum-duration filter follows. -/
def spindle_fourthPass (rate minS : ℚ) (l : List (ℕ × ℕ)) : List (ℕ × ℕ) :=
  np_delete l (spindle_short_idx rate minS l)

/-! ## Claim C5 -/

/-- C5 counterexample: Spindle's duration pass keeps a run of 10^7 samples at
1250 Hz, an event 8·10^6 ms long — far beyond any configured maximum duration such as
Ripple's 450 ms default — so the claim that every detector drops runs above
`max_duration` is false for Spindle. -/
theorem spindle_no_max_duration_counterexample :
    spindle_fourthPass 1250 350 [(0, 10000000)] = [(0, 10000000)] ∧
    spindle_duration 1250 (0, 10000000) = 8000000 ∧
    ¬ (spindle_duration 1250 (0, 10000000) ≤ 450) := by
  refine ⟨?_, by norm_num [spindle_duration], by norm_num [spindle_duration]⟩
  norm_num [spindle_fourthPass, np_delete, spindle_short_idx, List.enum, spindle_duration]

/-- C5 amended: every event emitted by Ripple.detect's duration filter satisfies
`minDuration ≤ duration ≤ maxDuration`, while Spindle.detect's duration pass enforces
only the lower bound `minSpindleDuration ≤ duration`. -/
theorem duration_filter_bounds (f minD maxD rate minS : ℚ) (l m : List (ℕ × ℕ))
    (r s : ℕ × ℕ) (hr : r ∈ ripple_durationFilter f minD maxD l)
    (hs : s ∈ spindle_fourthPass rate minS m) :
    (minD ≤ ripple_duration f r ∧ ripple_duration f r ≤ maxD) ∧
    minS ≤ spindle_duration rate s := by
  constructor
  · unfold ripple_durationFilter at hr
    have h2 := List.mem_filter.mp hr
    have h1 := List.mem_filter.mp h2.1
    exact ⟨of_decide_eq_true h1.2, of_decide_eq_true h2.2⟩
  · unfold spindle_fourthPass np_delete at hs
    rcases List.mem_map.mp hs with ⟨p, hmem, hp⟩
    have h := List.mem_filter.mp hmem
    have hidx : p.1 ∉ spindle_short_idx rate minS m := of_decide_eq_true h.2
    rw [← hp]
    by_contra hlt
    have hshort : spindle_duration rate p.2 < minS := lt_of_not_le hlt
    refine hidx ?_
    unfold spindle_short_idx
    exact List.mem_map.mpr ⟨p, List.mem_filter.mpr ⟨h.1, decide_eq_true hshort⟩, rfl⟩

/-- Witness for C5 amended on concrete filter outputs: run (0, 100) at 1000 Hz for the
ripple filter and run (0, 500) at 1000 Hz for the spindle pass. -/
theorem duration_filter_bounds_witness :
    ((1 : ℚ) / 20 ≤ ripple_duration 1000 (0, 100) ∧ ripple_duration 1000 (0, 100) ≤ 2) ∧
    (350 : ℚ) ≤ spindle_duration 1000 (0, 500) :=
  duration_filter_bounds 1000 (1 / 20) 2 1000 350 [(0, 100)] [(0, 500)] (0, 100) (0, 500)
    (by norm_num [ripple_durationFilter, ripple_duration])
    (by norm_num [spindle_fourthPass, np_delete, spindle_short_idx, List.enum, spindle_duration])

/-! ## Ripple.detect pipeline (lfpEvent.py lines 301-376); raised numpy exceptions are
modelled with Except -/

/-- Per-sample channel count above the low threshold:
`np.where(zscsignal > lowthreshold, 1, 0).sum(axis=0)`. `zsc` is the list of channel
signals, all of the common length of the first channel. -/
def threshCount (zsc : List (List ℚ)) (low : ℚ) (t : ℕ) : ℕ :=
  (zsc.filter (fun ch => decide (low < ch.getD t 0))).length

/-- Binarized combined signal `np.where(ThreshSignal > 0, 1, 0)`. -/
def threshBin (zsc : List (List ℚ)) (low : ℚ) : List ℕ :=
  (List.range (zsc.headD []).length).map (fun t => if 0 < threshCount zsc low t then 1 else 0)

/-- np.diff of the binary signal. -/
def np_diff (b : List ℕ) : List ℤ :=
  List.zipWith (fun x y => (y : ℤ) - (x : ℤ)) b b.tail

/-- Edge positions `np.where(ThreshSignal == v)[0]` of the diff signal. -/
def edgeIdx (d : List ℤ) (v : ℤ) : List ℕ :=
  (d.enum.filter (fun p => decide (p.2 = v))).map Prod.fst

/-- First pass of Ripple.detect: pair rising and falling edges after trimming
incomplete runs at the signal boundary. Indexing `start_ripple[0]`, `stop_ripple[0]`,
`stop_ripple[-1]` on an empty array raises IndexError; `np.vstack` of mismatched edge
arrays raises ValueError. -/
def firstPassE (starts stops : List ℕ) : Except String (List (ℕ × ℕ)) :=
  match starts, stops with
  | [], _ => Except.error "IndexError"
  | _, [] => Except.error "IndexError"
  | s0 :: _, p0 :: _ =>
    let stops2 := if p0 < s0 then stops.tail else stops
    match stops2.getLast? with
    | none => Except.error "IndexError"
    | some pl =>
      let starts2 := if pl < starts.getLast?.getD 0 then starts.dropLast else starts
      if starts2.length = stops2.length then Except.ok (starts2.zip stops2)
      else Except.error "ValueError"

/-- Channel-wise maximum `np.max(zscsignal, axis=0)`. -/
def maxPower (zsc : List (List ℚ)) : List ℚ :=
  (List.range (zsc.headD []).length).map
    (fun t => ((zsc.map (fun ch => ch.getD t 0)).max?).getD 0)

/-- Maximum of the signal over the run's sample range: `max(maxPower[start:end])`. -/
def sliceMax (sig : List ℚ) (r : ℕ × ℕ) : ℚ :=
  (((sig.drop r.1).take (r.2 - r.1)).max?).getD 0

/-- Third pass of Ripple.detect: keep merged runs whose peak combined z-score exceeds
the high threshold (`maxValue > highthreshold`). -/
def ripple_thirdPass (mp : List ℚ) (high : ℚ) (sp : List (ℕ × ℕ)) : List (ℕ × ℕ) :=
  sp.filter (fun r => decide (high < sliceMax mp r))

/-- Ripple.detect event pipeline on the z-scored channel signals: binarize, pair edges
(IndexError on empty edge arrays), merge (IndexError on an empty first pass), peak
filter, then `np.diff(thirdPass, axis=1)` — which raises AxisError on an empty third
pass since the empty array is 1-dimensional — and finally the duration filter. -/
def ripple_detect (zsc : List (List ℚ)) (low high g f minD maxD : ℚ) :
    Except String (List (ℕ × ℕ)) :=
  let d := np_diff (threshBin zsc low)
  match firstPassE (edgeIdx d 1) (edgeIdx d (-1)) with
  | Except.error e => Except.error e
  | Except.ok [] => Except.error "IndexError"
  | Except.ok (r :: rest) =>
    match ripple_thirdPass (maxPower zsc) high (mergeAux g r rest) with
    | [] => Except.error "AxisError"
    | t :: tp => Except.ok (ripple_durationFilter f minD maxD (t :: tp))

/-! ## Claim C8 -/

/-- C8 evaluation at the claim's own example input: a z-scored signal with no sample
above the low threshold produces empty edge arrays, and `Ripple.detect` raises
IndexError at `start_ripple[0]` instead of returning an empty event table. -/
theorem ripple_detect_error_on_no_crossings :
    ripple_detect [[0, 0, 0, 0]] 1 5 50 1000 (1 / 10) 2 = Except.error "IndexError" := by
  rfl

/-! ## Bayes1d._score_events (decoders.py lines 342-396) -/

/-- numpy astype(int): truncation toward zero. -/
def truncToInt (q : ℚ) : ℤ := if 0 ≤ q then ⌊q⌋ else ⌈q⌉

/-- Indexing helper over ℤ returning 0 outside bounds. -/
def getQ (col : List ℚ) (i : ℤ) : ℚ := if 0 ≤ i then col.getD i.toNat 0 else 0

/-- Full convolution with np.ones(3) along the position axis
(`np.apply_along_axis(np.convolve, axis=0, arr=evt, v=np.ones(3))`, default mode
"full"): the output column has length n + 2 and entry j sums the inputs at
j, j - 1 and j - 2. -/
def conv3 (col : List ℚ) : List ℚ :=
  (List.range (col.length + 2)).map
    (fun j => getQ col j + getQ col ((j : ℤ) - 1) + getQ col ((j : ℤ) - 2))

/-- np.median: middle element of the sorted values, or the mean of the two middle
elements for even length. -/
def np_median (l : List ℚ) : ℚ :=
  let s := List.insertionSort (· ≤ ·) l
  if l.length % 2 = 1 then s.getD (l.length / 2) 0
  else (s.getD (l.length / 2 - 1) 0 + s.getD (l.length / 2) 0) / 2

/-- Accumulator loop of np.argmax: scan the values left to right, keeping the first
index attaining the running maximum. -/
def argmaxAux (b : ℕ × ℚ) (i : ℕ) : List ℚ → ℕ × ℚ
  | [] => b
  | x :: xs => argmaxAux (if b.2 < x then (i, x) else b) (i + 1) xs

/-- np.argmax: index of the first occurrence of the maximum (0 on the empty list). -/
def np_argmax : List ℚ → ℕ
  | [] => 0
  | x :: xs => (argmaxAux (0, x) 1 xs).1

/-- Row index of the line with direction (cos θ, sin θ) and intercept `c` at column t:
`y_line = ((cmat - (tmat - tmid) * np.cos(mmat)) / np.sin(mmat) + pmid).astype(int)`. -/
def y_line (cosv sinv c tmid pmid : ℚ) (t : ℕ) : ℤ :=
  truncToInt ((c - ((t : ℚ) - tmid) * cosv) / sinv + pmid)

/-- Sampled value of one line at one time-bin column of the smoothed posterior: the
entry at the line's row when `0 ≤ y_line ≤ npos - 1` (`npos` is the original row
count), otherwise the column's median
(`posterior[t_out] = np.median(evt[:, t_out[1]], axis=0)`). -/
def lineVal (scols : List (List ℚ)) (npos : ℕ) (cosv sinv c tmid pmid : ℚ) (t : ℕ) : ℚ :=
  let y := y_line cosv sinv c tmid pmid t
  if 0 ≤ y ∧ y ≤ (npos : ℤ) - 1 then (scols.getD t []).getD y.toNat 0
  else np_median (scols.getD t [])

/-- Mean over time bins of one line's sampled values
(`posterior_sum = np.nanmean(posterior, axis=1)`), after box-smoothing every column.
The event posterior is stored as the list of its time-bin columns, with
`tmid = (nt + 1) / 2` and `pmid = (npos + 1) / 2`. -/
def lineAvg (cols : List (List ℚ)) (cosv sinv c : ℚ) : ℚ :=
  (∑ t ∈ Finset.range cols.length,
    lineVal (cols.map conv3) (cols.headD []).length cosv sinv c
      (((cols.length : ℚ) + 1) / 2) ((((cols.headD []).length : ℚ) + 1) / 2) t)
    / (cols.length : ℚ)

/-- score_event from Bayes1d._score_events: the random angles enter through their
cosines and sines (`cosv`, `sinv`) and the random intercepts through `c`. Returns
(score, slope) = (posterior_sum[max_line], -(1 / tan(theta[max_line]))), with
tan θ = sin θ / cos θ. -/
def score_event (cols : List (List ℚ)) (nlines : ℕ) (cosv sinv c : ℕ → ℚ) : ℚ × ℚ :=
  let sums := (List.range nlines).map (fun k => lineAvg cols (cosv k) (sinv k) (c k))
  let max_line := np_argmax sums
  (sums.getD max_line 0, -(1 / (sinv max_line / cosv max_line)))

/-- Helper: keeping the larger of the running best and the next value is the max. -/
theorem if_lt_max (x a : ℚ) : (if x < a then a else x) = max x a := by
  rcases le_or_lt a x with h | h
  · rw [if_neg (not_lt.mpr h), max_eq_left h]
  · rw [if_pos h, max_eq_right h.le]

/-- Helper: the value tracked by the argmax scan is the fold of max. -/
theorem argmaxAux_snd : ∀ (xs : List ℚ) (b : ℕ × ℚ) (i : ℕ),
    (argmaxAux b i xs).2 = xs.foldl max b.2 := by
  intro xs
  induction xs with
  | nil => intro b i; rfl
  | cons x xs ih =>
    intro b i
    simp only [argmaxAux, List.foldl_cons]
    rw [ih]
    congr 1
    rw [apply_ite Prod.snd]
    exact if_lt_max b.2 x

/-- Helper: the index tracked by the argmax scan stays in bounds. -/
theorem argmaxAux_fst_lt : ∀ (xs : List ℚ) (b : ℕ × ℚ) (i : ℕ), b.1 < i →
    (argmaxAux b i xs).1 < i + xs.length := by
  intro xs
  induction xs with
  | nil =>
    intro b i h
    simpa [argmaxAux] using h
  | cons x xs ih =>
    intro b i h
    simp only [argmaxAux]
    have hb : (if b.2 < x then ((i, x) : ℕ × ℚ) else b).1 < i + 1 := by
      split
      · exact Nat.lt_succ_self i
      · exact Nat.lt_succ_of_lt h
    have := ih _ (i + 1) hb
    simp only [List.length_cons]
    omega

/-- Helper: the argmax scan's tracked index always points at its tracked value. -/
theorem argmaxAux_getD (L : List ℚ) : ∀ (xs : List ℚ) (b : ℕ × ℚ) (i : ℕ),
    L.getD b.1 0 = b.2 → (∀ k, k < xs.length → L.getD (i + k) 0 = xs.getD k 0) →
    L.getD (argmaxAux b i xs).1 0 = (argmaxAux b i xs).2 := by
  intro xs
  induction xs with
  | nil => intro b i hb _; exact hb
  | cons x xs ih =>
    intro b i hb hk
    simp only [argmaxAux]
    refine ih _ (i + 1) ?_ ?_
    · split
      · have := hk 0 (Nat.succ_pos _)
        simpa using this
      · exact hb
    · intro k hkk
      have := hk (k + 1) (by simpa using Nat.succ_lt_succ hkk)
      have harith : i + (k + 1) = i + 1 + k := by omega
      rw [harith] at this
      simpa using this

/-- Helper: the fold of max dominates the seed and every element. -/
theorem foldl_max_le : ∀ (xs : List ℚ) (x : ℚ),
    x ≤ xs.foldl max x ∧ ∀ y ∈ xs, y ≤ xs.foldl max x := by
  intro xs
  induction xs with
  | nil => intro x; exact ⟨le_refl x, by simp⟩
  | cons a xs ih =>
    intro x
    simp only [List.foldl_cons]
    refine ⟨le_trans (le_max_left x a) (ih (max x a)).1, ?_⟩
    intro y hy
    rcases List.mem_cons.mp hy with h | h
    · subst h
      exact le_trans (le_max_right x y) (ih (max x y)).1
    · exact (ih (max x a)).2 y h

/-! ## Claim C9 -/

/-- C9: the replay scorer samples each candidate line column by column (posterior
value at the line's row when in bounds, the column's median otherwise), averages
across time bins, and returns as score the maximum of the per-line averages, along
with slope −cot θ = −cos θ / sin θ of a line attaining that maximum. -/
theorem score_event_max_average_slope (cols : List (List ℚ)) (nlines : ℕ)
    (cosv sinv c : ℕ → ℚ) (h : 0 < nlines) :
    (∀ k, k < nlines →
        lineAvg cols (cosv k) (sinv k) (c k) ≤ (score_event cols nlines cosv sinv c).1) ∧
    (∃ k, k < nlines ∧
        lineAvg cols (cosv k) (sinv k) (c k) = (score_event cols nlines cosv sinv c).1 ∧
        (score_event cols nlines cosv sinv c).2 = -(cosv k / sinv k)) := by
  cases hs : (List.range nlines).map (fun k => lineAvg cols (cosv k) (sinv k) (c k)) with
  | nil =>
    exfalso
    have := congrArg List.length hs
    simp at this
    omega
  | cons x xs =>
    have hlen : nlines = xs.length + 1 := by
      have := congrArg List.length hs
      simpa using this
    have h1 : (score_event cols nlines cosv sinv c).1
        = (x :: xs).getD (np_argmax (x :: xs)) 0 := by
      simp only [score_event]
      rw [hs]
    have h2 : (score_event cols nlines cosv sinv c).2
        = -(1 / (sinv (np_argmax (x :: xs)) / cosv (np_argmax (x :: xs)))) := by
      simp only [score_event]
      rw [hs]
    have hk0lt : np_argmax (x :: xs) < nlines := by
      have := argmaxAux_fst_lt xs (0, x) 1 Nat.one_pos
      simp only [np_argmax]
      omega
    have hgd : (x :: xs).getD (np_argmax (x :: xs)) 0 = xs.foldl max x := by
      have := argmaxAux_getD (x :: xs) xs (0, x) 1 rfl
        (fun k hk => by
          have harith : 1 + k = k + 1 := by omega
          rw [harith]
          simp)
      simp only [np_argmax]
      rw [this, argmaxAux_snd]
    have hmem : ∀ k, k < nlines →
        lineAvg cols (cosv k) (sinv k) (c k) ∈ (x :: xs) := by
      intro k hk
      rw [← hs]
      exact List.mem_map.mpr ⟨k, List.mem_range.mpr hk, rfl⟩
    have hub : ∀ y ∈ x :: xs, y ≤ xs.foldl max x := by
      intro y hy
      rcases List.mem_cons.mp hy with hy | hy
      · subst hy
        exact (foldl_max_le xs y).1
      · exact (foldl_max_le xs x).2 y hy
    constructor
    · intro k hk
      rw [h1, hgd]
      exact hub _ (hmem k hk)
    · refine ⟨np_argmax (x :: xs), hk0lt, ?_, ?_⟩
      · have hsum : ∀ j, j < nlines → ((List.range nlines).map
            (fun k => lineAvg cols (cosv k) (sinv k) (c k))).getD j 0
            = lineAvg cols (cosv j) (sinv j) (c j) := by
          intro j hj
          have hb : j < ((List.range nlines).map
              (fun k => lineAvg cols (cosv k) (sinv k) (c k))).length := by
            simpa using hj
          rw [List.getD_eq_getElem _ _ hb]
          simp
        rw [h1, ← hs]
        rw [← hs] at hk0lt
        exact (hsum _ hk0lt).symm
      · rw [h2, one_div, inv_div]

/-- Witness for C9 on a one-column posterior with a single vertical candidate line. -/
theorem score_event_max_average_slope_witness :
    lineAvg [[1, 2]] 0 1 0 ≤ (score_event [[1, 2]] 1 (fun _ => 0) (fun _ => 1) (fun _ => 0)).1 :=
  (score_event_max_average_slope [[1, 2]] 1 (fun _ => 0) (fun _ => 1) (fun _ => 0)
    Nat.one_pos).1 0 Nat.one_pos

/-! ## Bayes1d.decode_shuffle, kind="cellid" (decoders.py lines 269-340) -/

/-- np.random.shuffle of the rate-map rows: one application of the row permutation. -/
def permuteRows (p : ℕ → ℕ) (rm : List (List ℚ)) : List (List ℚ) :=
  (List.range rm.length).map (fun j => rm.getD (p j) [])

/-- List-matrix form of `Bayes1d._decoder` on the concatenated event spike counts:
`spk` is cells × time bins, `rm` is cells × position bins. -/
def decoder_list (E : ℚ → ℚ) (tau : ℚ) (spk : List (List ℕ)) (rm : List (List ℚ))
    (p t : ℕ) : ℚ :=
  posterior E tau spk.length (rm.headD []).length
    (fun cell t2 => (spk.getD cell []).getD t2 0)
    (fun cell q => (rm.getD cell []).getD q 0) p t

/-- Cumulative bin offsets `cum_nbins = np.append(0, np.cumsum(nbins_events))`. -/
def cumBins (nbins : List ℕ) (e : ℕ) : ℕ := (nbins.take e).sum

/-- Split of the concatenated posterior back into per-event matrices
(`posterior_[:, cum_nbins[i] : cum_nbins[i + 1]]`), each stored as the list of its
time-bin columns. -/
def splitChunks (f : ℕ → ℕ → ℚ) (nPos : ℕ) (nbins : List ℕ) : List (List (List ℚ)) :=
  (List.range nbins.length).map (fun e =>
    (List.range (nbins.getD e 0)).map (fun t =>
      (List.range nPos).map (fun p => f p (cumBins nbins e + t))))

/-- Decoded position of one time-bin column:
`decodedPos_ = bincntr[np.argmax(posterior_, axis=0)]`. -/
def decodedOf (f : ℕ → ℕ → ℚ) (nPos : ℕ) (bincntr : List ℚ) (t : ℕ) : ℚ :=
  bincntr.getD (np_argmax ((List.range nPos).map (fun p => f p t))) 0

/-- Iteration loop of the cellid shuffle: at iteration `i` the rate-map rows are
shuffled in place once more, the posterior is recomputed on the concatenated spike
counts, and the result is split per event; the per-event posteriors and decoded
positions are accumulated, but nothing is ever appended to `score`, which stays `[]`
(the kind="cellid" branch of decode_shuffle never touches `score`). Returns
(posterior chunks, decodedPos chunks, score). -/
def cellid_go (E : ℚ → ℚ) (tau : ℚ) (perm : ℕ → ℕ → ℕ) (spkAll : List (List ℕ))
    (nbins : List ℕ) (bincntr : List ℚ) (i : ℕ) :
    ℕ → List (List ℚ) → List (List (List ℚ)) × List (List ℚ) × List (List ℚ)
  | 0, _ => ([], [], [])
  | fuel + 1, rm =>
    let rm2 := permuteRows (perm i) rm
    let post := decoder_list E tau spkAll rm2
    let nPos := (rm2.headD []).length
    let postChunks := splitChunks post nPos nbins
    let decChunks := (List.range nbins.length).map (fun e =>
      (List.range (nbins.getD e 0)).map (fun t =>
        decodedOf post nPos bincntr (cumBins nbins e + t)))
    let rest := cellid_go E tau perm spkAll nbins bincntr (i + 1) fuel rm2
    (postChunks ++ rest.1, decChunks ++ rest.2.1, rest.2.2)

/-- decode_shuffle with kind="cellid": run `n_iter` shuffle iterations starting from
the good-cell-filtered, place-field-sorted rate maps `rm0`. The third component is
the final contents of `self.shuffle_score`. -/
def decode_shuffle_cellid (E : ℚ → ℚ) (tau : ℚ) (perm : ℕ → ℕ → ℕ)
    (spkAll : List (List ℕ)) (nbins : List ℕ) (bincntr : List ℚ) (n_iter : ℕ)
    (rm0 : List (List ℚ)) : List (List (List ℚ)) × List (List ℚ) × List (List ℚ) :=
  cellid_go E tau perm spkAll nbins bincntr 0 n_iter rm0

/-! ## Claim C6 -/

/-- C6 evaluation: with kind="cellid", n_iter = 2 and three one-bin events, the branch
accumulates 2 × 3 shuffled event posteriors yet returns an empty shuffle_score — the
per-event, per-iteration null scores the claim promises are never computed. -/
theorem cellid_shuffle_score_empty :
    (decode_shuffle_cellid (fun _ => 1) 1 (fun _ j => j) [[1, 0, 1], [0, 1, 0]]
        [1, 1, 1] [0, 1] 2 [[2, 0], [0, 2]]).1.length = 6 ∧
    (decode_shuffle_cellid (fun _ => 1) 1 (fun _ j => j) [[1, 0, 1], [0, 1, 0]]
        [1, 1, 1] [0, 1] 2 [[2, 0], [0, 2]]).2.2 = [] := by
  exact ⟨rfl, rfl⟩

end NeuroPy
